import Mathlib

/-!
# Verification of the sniplicity directive-resolution engine

Shallow embedding of the Go implementation (`internal/parser/directive.go`,
`internal/processor/directives.go`, `internal/processor/svg.go`,
`internal/processor/index_helpers.go`, `internal/types/fileinfo.go`).

Text is modelled as `List Char` (one Go string = one `Str`).  Go maps that are
only ever written by `m[k] = v` and read by lookup are modelled as association
lists where an insert prepends, so the first matching entry is the live one.
`float64` values are modelled by exact rationals (`GoFloat`); the float values
arising in the claims (Unix timestamps, small literals) are exactly
representable, and rounding is monotone, so relative order is preserved.
-/

set_option maxRecDepth 10000

namespace Sniplicity

/-- Go `string`, modelled as its list of runes. -/
abbrev Str := List Char

/-- Whitespace as recognized by Go's `unicode.IsSpace` restricted to ASCII
(`strings.TrimSpace`, `strings.Fields`). -/
def isUniSpace (c : Char) : Bool :=
  c = ' ' || c = '\t' || c = '\n' || c = '\x0b' || c = '\x0c' || c = '\r'

/-- Whitespace matched by the regexp class `\s` in Go (`[\t\n\f\r ]`). -/
def isRegexSpace (c : Char) : Bool :=
  c = ' ' || c = '\t' || c = '\n' || c = '\x0c' || c = '\r'

/-- `strings.TrimSpace` (ASCII fragment). -/
def trimSpace (s : Str) : Str :=
  (s.dropWhile isUniSpace).reverse.dropWhile isUniSpace |>.reverse

/-- Accumulator worker for `fields` (the accumulated word is reversed). -/
def fieldsGo : Str → Str → List Str
  | [], word => if word = [] then [] else [word.reverse]
  | c :: cs, word =>
    if isUniSpace c then
      if word = [] then fieldsGo cs [] else word.reverse :: fieldsGo cs []
    else fieldsGo cs (c :: word)

/-- `strings.Fields`: split around runs of whitespace. -/
def fields (s : Str) : List Str := fieldsGo s []

/-- `strings.Join` with separator `" "`. -/
def joinSp : List Str → Str
  | [] => []
  | [w] => w
  | w :: ws => w ++ ' ' :: joinSp ws

/-- `strings.Join` with separator `"\n"`. -/
def joinNl : List Str → Str
  | [] => []
  | [w] => w
  | w :: ws => w ++ '\n' :: joinNl ws

/-- `strings.Split(s, "\n")`. -/
def splitNl : Str → List Str
  | [] => [[]]
  | c :: cs =>
    if c = '\n' then [] :: splitNl cs
    else
      match splitNl cs with
      | [] => [[c]]
      | l :: ls => (c :: l) :: ls

/-- `strings.Contains`. -/
def strContains (s sub : Str) : Bool := decide (sub <:+: s)

/-- `strings.HasPrefix`. -/
def hasPrefix (s pre : Str) : Bool := decide (pre <+: s)

/-- `strings.ToLower` (ASCII fragment, applied rune-wise). -/
def asciiLower (s : Str) : Str := s.map Char.toLower

/-! ## Directive parser (`internal/parser/directive.go`) -/

/-- Kinds of `Directive` (Go `DirectiveType`). -/
inductive DKind where
  | copy | cut | paste | set | globalv | template | include | index
  | dif | dendif | unknown
  deriving DecidableEq, Repr

/-- Go `parser.Directive` (the `Content` field holds a block's collected lines). -/
structure Directive where
  kind : DKind
  name : Str := []
  args : List Str := []
  lineIndex : Nat := 0
  content : List Str := []
  deriving DecidableEq, Repr

/-- Search, in the text following the `\s+` after `<!--`, for the minimal end
of the lazy capture group of `^\s*\<\!\-\-\s+(.*?)\s+\-\-\>`: the first
position followed by a nonempty whitespace run and then `-->`.  Returns the
number of characters belonging to the capture. -/
def lazyCaptureLen (body : Str) : Option Nat :=
  let stop := fun (t : Str) =>
    let r := t.takeWhile isRegexSpace
    r ≠ [] && hasPrefix (t.drop r.length) ['-', '-', '>']
  go body stop 0
where
  go : Str → (Str → Bool) → Nat → Option Nat
    | [], _, _ => none
    | t@(_ :: ts), stop, acc => if stop t then some acc else go ts stop (acc + 1)

/-- The submatch of the Go regexp `^\s*\<\!\-\-\s+(.*?)\s+\-\-\>` applied to
an already-trimmed line (operational model of RE2's leftmost, lazy-capture
behaviour, including the backtracking of the first greedy `\s+`). -/
def directiveContent (s : Str) : Option Str :=
  match s with
  | c1 :: c2 :: c3 :: c4 :: rest =>
    if !(c1 = '<' && c2 = '!' && c3 = '-' && c4 = '-') then none
    else
    match rest with
    | c :: _ =>
      if isRegexSpace c then
        -- the first `\s+` greedily takes the maximal run; the capture starts
        -- after it.  If no capture end is found, the regexp backtracks and the
        -- only remaining possibility is an empty capture directly followed by
        -- `\s+\-\-\>` inside the whitespace run, i.e. `-->` right after it.
        let run := rest.takeWhile isRegexSpace
        let body := rest.drop run.length
        match lazyCaptureLen body with
        | some n => some (body.take n)
        | none =>
          if run.length ≥ 2 && hasPrefix body ['-', '-', '>'] then some [] else none
      else none
    | [] => none
  | _ => none

/-- The identifier charset `^[-\w.]+$` (letters, digits, `_`, `-`, `.`). -/
def identChar (c : Char) : Bool :=
  ('0' ≤ c && c ≤ '9') || ('a' ≤ c && c ≤ 'z') || ('A' ≤ c && c ≤ 'Z') ||
    c = '_' || c = '-' || c = '.'

/-- `identifierRegex.MatchString`: the whole (nonempty) string is made of
identifier characters. -/
def validIdent (s : Str) : Bool := s ≠ [] && s.all identChar

/-- The command dispatch of `parser.ParseLine` after the directive content has
been split into fields. -/
def dispatchCommand (parts : List Str) (lineIndex : Nat) : Option Directive :=
  match parts with
  | [] => none
  | command :: rest =>
    if command = "end".data then some { kind := .unknown, lineIndex }
    else if command = "endif".data then some { kind := .dendif, lineIndex }
    else if command = "if".data then
      if rest = [] then none
      else some { kind := .dif, name := joinSp rest, lineIndex }
    else if command = "copy".data || command = "cut".data || command = "paste".data ||
        command = "set".data || command = "global".data || command = "template".data then
      match rest with
      | [] => none
      | identifier :: rest2 =>
        if !validIdent identifier then none
        else if command = "copy".data then
          some { kind := .copy, name := identifier, lineIndex, content := [] }
        else if command = "cut".data then
          some { kind := .cut, name := identifier, lineIndex, content := [] }
        else if command = "paste".data then
          some { kind := .paste, name := identifier, lineIndex }
        else if command = "template".data then
          some { kind := .template, name := identifier, lineIndex, content := [] }
        else
          -- set / global: optional value defaulting to "true"
          let value := if rest2 = [] then "true".data else joinSp rest2
          if command = "set".data then
            some { kind := .set, name := identifier, args := [value], lineIndex }
          else
            some { kind := .globalv, name := identifier, args := [value], lineIndex }
    else if command = "include".data then
      if rest = [] then none
      else some { kind := .include, args := [joinSp rest], lineIndex }
    else if command = "index".data then
      if rest = [] then none
      else some { kind := .index, args := rest, lineIndex }
    else none

/-- `parser.ParseLine` (the Go code first reassigns
`line = strings.TrimSpace(line)`). -/
def parseLine (line : Str) (lineIndex : Nat) : Option Directive :=
  match directiveContent (trimSpace line) with
  | none => none
  | some content => dispatchCommand (fields content) lineIndex

/-- `parser.IsBlockEnd`. -/
def isBlockEnd (line : Str) : Bool :=
  match parseLine line 0 with
  | some d => d.kind = .unknown &&
      (strContains line "end".data || strContains line "endif".data)
  | none => false

/-- `parser.ParseDirectives`: whole-file directive extraction with a single
current block for `copy`/`cut`/`template` (unclosed block appended at EOF). -/
def parseDirectivesGo (content : List Str) (i : Nat) (current : Option Directive) :
    List Directive :=
  match content with
  | [] =>
    match current with
    | some blk => [blk]
    | none => []
  | line :: rest =>
    match current with
    | some blk =>
      if isBlockEnd line then blk :: parseDirectivesGo rest (i + 1) none
      else
        match parseLine line i with
        | some d =>
          if d.kind = .copy || d.kind = .cut || d.kind = .template then
            -- `currentBlock = directive` overwrites an open block without
            -- committing it
            parseDirectivesGo rest (i + 1) (some d)
          else d :: parseDirectivesGo rest (i + 1) current
        | none => parseDirectivesGo rest (i + 1) (some { blk with content := blk.content ++ [line] })
    | none =>
      match parseLine line i with
      | some d =>
        if d.kind = .copy || d.kind = .cut || d.kind = .template then
          parseDirectivesGo rest (i + 1) (some d)
        else d :: parseDirectivesGo rest (i + 1) none
      | none => parseDirectivesGo rest (i + 1) none

/-- `parser.ParseDirectives` on a file's lines. -/
def parseDirectives (content : List Str) : List Directive :=
  parseDirectivesGo content 0 none

/-! ## Variable maps and the variable engine
(`internal/processor/directives.go`, `parser.ExpandVariables`) -/

/-- A Go `map[string]string`: association list, first match wins, so
`m[k] = v` is modelled by prepending. -/
abbrev VarMap := List (Str × Str)

/-- Map lookup (`v, ok := m[k]`). -/
def vget (m : VarMap) (k : Str) : Option Str :=
  (m.find? (fun p => p.1 = k)).map (·.2)

/-- Map store (`m[k] = v`). -/
def vinsert (m : VarMap) (k v : Str) : VarMap := (k, v) :: m

/-- The merge idiom `for k, v := range src { dst[k] = v }` applied to a copy
of `dst`: entries of `src` shadow entries of `dst`. -/
def vmerge (dst src : VarMap) : VarMap := src ++ dst

/-- A Go `map[string][]string` (snippet / template tables). -/
abbrev SnipMap := List (Str × List Str)

/-- Snippet table lookup. -/
def sget (m : SnipMap) (k : Str) : Option (List Str) :=
  (m.find? (fun p => p.1 = k)).map (·.2)

/-- Snippet table store. -/
def sinsert (m : SnipMap) (k : Str) (v : List Str) : SnipMap := (k, v) :: m

/-- `processor.isTrue`: defined (locals shadowing metas) and not one of
`""`, `"false"`, `"0"`. -/
def isTrue (localVars metaVars : VarMap) (varName : Str) : Bool :=
  match vget localVars varName with
  | some v => v ≠ [] && v ≠ "false".data && v ≠ "0".data
  | none =>
    match vget metaVars varName with
    | some v => v ≠ [] && v ≠ "false".data && v ≠ "0".data
    | none => false

/-- `processor.isFalse`. -/
def isFalse (localVars metaVars : VarMap) (varName : Str) : Bool :=
  !isTrue localVars metaVars varName

/-- Evaluation of an `if` condition as done both by the block sweep in
`ProcessContentWithDirectives` and by `processInlineConditionals`: a leading
`!` negates, and the rest of the condition is whitespace-trimmed. -/
def evalCondition (localVars metaVars : VarMap) (condition : Str) : Bool :=
  if hasPrefix condition ['!'] then
    isFalse localVars metaVars (trimSpace (condition.drop 1))
  else isTrue localVars metaVars condition

/-- One scan of the regexp `\{\{([-\w.]+)\}\}` with `ReplaceAllStringFunc`:
`repl` receives the variable name; `none` keeps the original token text
(`parser.ExpandVariables`), `some t` substitutes `t`.  Each step consumes at
least one character, so fuel `length + 1` is never exhausted. -/
def replaceVarTokensF (repl : Str → Option Str) : Nat → Str → Str
  | 0, s => s
  | _ + 1, [] => []
  | fuel + 1, '{' :: '{' :: rest =>
    let name := rest.takeWhile identChar
    let rest2 := rest.drop name.length
    if name ≠ [] && hasPrefix rest2 ['}', '}'] then
      (match repl name with
       | some t => t
       | none => '{' :: '{' :: name ++ ['}', '}']) ++
        replaceVarTokensF repl fuel (rest2.drop 2)
    else '{' :: replaceVarTokensF repl fuel ('{' :: rest)
  | fuel + 1, c :: rest => c :: replaceVarTokensF repl fuel rest

/-- The regexp scan with sufficient fuel. -/
def replaceVarTokens (repl : Str → Option Str) (s : Str) : Str :=
  replaceVarTokensF repl (s.length + 1) s

/-- `parser.ExpandVariables`: unmatched tokens are left intact. -/
def expandVariables (text : Str) (vars : VarMap) : Str :=
  replaceVarTokens (fun name => vget vars name) text

/-- `processor.doReplacements`: the merged `allVars` has locals overriding
metas; undefined tokens are replaced by the empty string (removed). -/
def doReplacements (text : Str) (localVars metaVars : VarMap) : Str :=
  replaceVarTokens (fun name =>
    match vget (vmerge metaVars localVars) name with
    | some v => some v
    | none => some []) text

/-- Does the trailing `<!--\s*endif\s*-->` of the inline-conditional regexp
match a prefix of `t`?  Returns the matched length. -/
def endifMarkerLen (t : Str) : Option Nat :=
  match t with
  | '<' :: '!' :: '-' :: '-' :: r1 =>
    let w1 := r1.takeWhile isRegexSpace
    let r2 := r1.drop w1.length
    match r2 with
    | 'e' :: 'n' :: 'd' :: 'i' :: 'f' :: r3 =>
      let w2 := r3.takeWhile isRegexSpace
      let r4 := r3.drop w2.length
      if hasPrefix r4 ['-', '-', '>'] then
        some (4 + w1.length + 5 + w2.length + 3)
      else none
    | _ => none
  | _ => none

/-- Attempt to match the inline-conditional regexp
`<!--\s*if\s+([^>]+)\s*-->(.*?)<!--\s*endif\s*-->` at the very start of `t`.
On success returns (condition capture, guarded content, total matched
length). -/
def inlineIfAt (t : Str) : Option (Str × Str × Nat) :=
  match t with
  | c1 :: c2 :: c3 :: c4 :: r1 =>
    if !(c1 = '<' && c2 = '!' && c3 = '-' && c4 = '-') then none
    else
    let w1 := r1.takeWhile isRegexSpace
    let r2 := r1.drop w1.length
    match r2 with
    | 'i' :: 'f' :: r3 =>
      match r3 with
      | c :: _ =>
        if isRegexSpace c then
          -- `\s+` consumes at least the first character of `r3`; `[^>]+`
          -- cannot cross a `>`, so the closing `-->` must end at the first
          -- `>` of `r3` (index `g`), the condition capture is `r3[1, g-2)`
          -- (a nonempty `[^>]+` needs `g ≥ 4`), and the greedy `\s+` only
          -- moves whitespace between the two captures, which the caller
          -- trims away.
          let g := (r3.takeWhile (fun c => c ≠ '>')).length
          if g = r3.length then none  -- no '>' at all
          else
            if g ≥ 4 && hasPrefix (r3.drop (g - 2)) ['-', '-', '>'] then
              let cond := (r3.drop 1).take (g - 3)
              let body := r3.drop (g + 1)
              match findEndif body 0 with
              | some (contentLen, markerLen) =>
                some (cond, body.take contentLen,
                  4 + w1.length + 2 + g + 1 + contentLen + markerLen)
              | none => none
            else none
        else none
      | [] => none
    | _ => none
  | _ => none
where
  /-- Lazy `(.*?)` scan: find the first position (over non-newline
  characters) where the `endif` marker matches. -/
  findEndif : Str → Nat → Option (Nat × Nat)
    | [], _ => none
    | t@(c :: rest), acc =>
      match endifMarkerLen t with
      | some m => some (acc, m)
      | none => if c = '\n' then none else findEndif rest (acc + 1)

/-- Leftmost match of the inline-conditional regexp: scan every start
position.  Returns (prefix before the match, condition, content, suffix after
the match). -/
def findInlineIf : Str → Option (Str × Str × Str × Str)
  | [] => none
  | t@(c :: rest) =>
    match inlineIfAt t with
    | some (cond, content, len) => some ([], cond, content, t.drop len)
    | none =>
      match findInlineIf rest with
      | some (pre, cond, content, post) => some (c :: pre, cond, content, post)
      | none => none

/-- One iteration step of `processInlineConditionals`' loop body, given a
match. -/
def inlineStep (localVars metaVars : VarMap) (pre cond content post : Str) : Str :=
  let condition := trimSpace cond
  let showContent := evalCondition localVars metaVars condition
  pre ++ (if showContent then content else []) ++ post

/-- `processor.processInlineConditionals`: repeatedly replace the leftmost
inline conditional.  Each replacement strictly shrinks the text, so fuel
`text.length + 1` can never be exhausted. -/
def processInlineConditionalsFuel (localVars metaVars : VarMap) :
    Nat → Str → Str
  | 0, text => text
  | fuel + 1, text =>
    match findInlineIf text with
    | none => text
    | some (pre, cond, content, post) =>
      processInlineConditionalsFuel localVars metaVars fuel
        (inlineStep localVars metaVars pre cond content post)

/-- `processor.processInlineConditionals`. -/
def processInlineConditionals (text : Str) (localVars metaVars : VarMap) : Str :=
  processInlineConditionalsFuel localVars metaVars (text.length + 1) text

/-- The block sweep of `ProcessContentWithDirectives`: one pass over the
lines with a `write` flag (conditional suppression) and a `cutting` flag. -/
def blockSweep (localVars metaVars : VarMap) :
    List Str → Bool → Bool → List Str
  | [], _, _ => []
  | line :: rest, write, cutting =>
    match parseLine line 0 with
    | some d =>
      match d.kind with
      | .dif =>
        let condition := d.name
        blockSweep localVars metaVars rest
          (evalCondition localVars metaVars condition) cutting
      | .dendif => blockSweep localVars metaVars rest true cutting
      | .cut => blockSweep localVars metaVars rest false true
      | .unknown =>
        if cutting && strContains (asciiLower line) "end".data then
          blockSweep localVars metaVars rest true false
        else blockSweep localVars metaVars rest write cutting
      | .set | .copy | .paste | .globalv | .template | .include | .index =>
        blockSweep localVars metaVars rest write cutting
    | none =>
      if write then line :: blockSweep localVars metaVars rest write cutting
      else blockSweep localVars metaVars rest write cutting

/-- `processor.ProcessContentWithDirectives`: inline conditionals, then the
line-level block sweep, then variable replacement on the joined text. -/
def processContentWithDirectives (content : Str) (localVars metaVars : VarMap) : Str :=
  doReplacements
    (joinNl (blockSweep localVars metaVars
      (splitNl (processInlineConditionals content localVars metaVars)) true false))
    localVars metaVars

/-! ## Collector (`processor.CollectSnippetsFromFile`,
`processor.CollectGlobalsFromFile` in `svg.go`) -/

/-- An open-block record on the Collector's stack. -/
structure StackItem where
  name : Str
  block : List Str
  itemType : DKind      -- .copy, .cut or .template
  nestingLevel : Nat
  startLine : Nat
  deriving DecidableEq, Repr

/-- Append a line to the buffer of every open block. -/
def pushLineToAll (stack : List StackItem) (line : Str) : List StackItem :=
  stack.map (fun it => { it with block := it.block ++ [line] })

/-- The loop body of `CollectSnippetsFromFile`, processing the remaining
lines given the current stack (the stack top is the LAST list element, as in
the Go slice).  Open blocks remaining at EOF are discarded. -/
def collectGo (lines : List Str) (i : Nat) (stack : List StackItem)
    (snippets templates : SnipMap) : SnipMap × SnipMap :=
  match lines with
  | [] => (snippets, templates)
  | line :: rest =>
    match parseLine line i with
    | some d =>
      if d.kind = .copy || d.kind = .cut || d.kind = .template then
        let item : StackItem :=
          { name := d.name, block := [], itemType := d.kind,
            nestingLevel := stack.length, startLine := i }
        collectGo rest (i + 1) (stack ++ [item]) snippets templates
      else if isBlockEnd line && stack ≠ [] then
        match stack.getLast? with
        | some item =>
          let stack' := stack.dropLast
          if item.itemType = .template then
            collectGo rest (i + 1) stack' snippets (sinsert templates item.name item.block)
          else
            collectGo rest (i + 1) stack' (sinsert snippets item.name item.block) templates
        | none => collectGo rest (i + 1) stack snippets templates
      else
        collectGo rest (i + 1) (pushLineToAll stack line) snippets templates
    | none =>
      collectGo rest (i + 1) (pushLineToAll stack line) snippets templates

/-- `processor.CollectSnippetsFromFile`. -/
def collectSnippetsFromFile (content : List Str) (snippets templates : SnipMap) :
    SnipMap × SnipMap :=
  collectGo content 0 [] snippets templates

/-- `processor.CollectGlobalsFromFile`. -/
def collectGlobalsFromFile (content : List Str) (globals : VarMap) : VarMap :=
  (parseDirectives content).foldl
    (fun g d => if d.kind = .globalv then vinsert g d.name (d.args.headD []) else g)
    globals

/-! ## Snippet Resolver (`processor.ProcessSnippets` in `svg.go`) -/

/-- Open-block record of the Resolver's file-local scan. -/
structure LocalStackItem where
  name : Str
  block : List Str
  isCut : Bool
  nestingLevel : Nat
  deriving DecidableEq, Repr

/-- Append a line to every open local block. -/
def pushLineToAllLocal (stack : List LocalStackItem) (line : Str) : List LocalStackItem :=
  stack.map (fun it => { it with block := it.block ++ [line] })

/-- `cutStart` search of `ProcessSnippets`: the first line index `< i` whose
line parses as a `cut` directive with the given name. -/
def findCutStart (content : List Str) (i : Nat) (name : Str) : Option Nat :=
  (List.range i).find? (fun j =>
    match parseLine (content.getD j []) j with
    | some d => d.kind = .cut && d.name = name
    | none => false)

/-- State of the local scan: open stack, nesting counter, collected local
snippets, recorded cut ranges. -/
structure LocalScanState where
  stack : List LocalStackItem
  nestingLevel : Nat
  localSnippets : SnipMap
  cutRanges : List (Nat × Nat)
  deriving Repr

/-- The first pass of `ProcessSnippets`: find local snippets and cut
regions.  `content` is the whole file (needed for the `cutStart` search);
`lines` the remaining suffix starting at index `i`. -/
def localScan (content : List Str) : List Str → Nat → LocalScanState → LocalScanState
  | [], _, st => st
  | line :: rest, i, st =>
    match parseLine line i with
    | some d =>
      match d.kind with
      | .cut =>
        let lvl := st.nestingLevel + 1
        localScan content rest (i + 1)
          { st with
            nestingLevel := lvl
            stack := st.stack ++ [{ name := d.name, block := [], isCut := true, nestingLevel := lvl }] }
      | .copy =>
        let lvl := st.nestingLevel + 1
        localScan content rest (i + 1)
          { st with
            nestingLevel := lvl
            stack := st.stack ++ [{ name := d.name, block := [], isCut := false, nestingLevel := lvl }] }
      | _ =>
        if isBlockEnd line then
          -- the inner `for` lowering `nestingLevel` can never run: every
          -- stacked item's level is at most the (never-decremented) counter
          match st.stack.getLast? with
          | some item =>
            let stack' := st.stack.dropLast
            let localSnippets' := sinsert st.localSnippets item.name item.block
            let cutRanges' :=
              if item.isCut then
                match findCutStart content i item.name with
                | some cutStart => st.cutRanges ++ [(cutStart, i)]
                | none => st.cutRanges
              else st.cutRanges
            -- a nested snippet's end line is appended to the parent's block
            let stack'' :=
              match stack'.getLast? with
              | some p => stack'.dropLast ++ [{ p with block := p.block ++ [line] }]
              | none => stack'
            localScan content rest (i + 1)
              { st with
                stack := stack''
                localSnippets := localSnippets'
                cutRanges := cutRanges' }
          | none =>
            localScan content rest (i + 1)
              { st with stack := pushLineToAllLocal st.stack line }
        else
          localScan content rest (i + 1)
            { st with stack := pushLineToAllLocal st.stack line }
    | none =>
      localScan content rest (i + 1)
        { st with stack := pushLineToAllLocal st.stack line }

/-- Cut-region removal: keep a line unless its index lies in a recorded
inclusive cut range. -/
def removeCutRegions (content : List Str) (cutRanges : List (Nat × Nat)) : List Str :=
  ((content.enum).filter (fun p =>
    !(cutRanges.any (fun r => r.1 ≤ p.1 && p.1 ≤ r.2)))).map (·.2)

/-- One full pass of the iterative paste expansion: returns the new lines and
whether any `paste` directive was found. -/
def snippetPass (localSnippets snippets : SnipMap) : List Str → List Str × Bool
  | [] => ([], false)
  | line :: rest =>
    let (tail, found) := snippetPass localSnippets snippets rest
    match parseLine line 0 with
    | some d =>
      if d.kind = .paste then
        match sget localSnippets d.name with
        | some snippetContent => (snippetContent ++ tail, true)
        | none =>
          match sget snippets d.name with
          | some snippetContent => (snippetContent ++ tail, true)
          | none => (tail, true)   -- undefined: directive dropped, still counts as found
      else if d.kind = .copy || d.kind = .cut || d.kind = .template || isBlockEnd line then
        (tail, found)
      else (line :: tail, found)
    | none => (line :: tail, found)

/-- The bounded iteration of `ProcessSnippets` (`for iteration <
maxIterations`, `maxIterations = 10`), with the remaining iteration budget
`fuel = 10 - iteration` made structural.  Returns the final lines together
with the value of `iteration` after the loop. -/
def snippetLoopF (localSnippets snippets : SnipMap) :
    Nat → Nat → List Str → List Str × Nat
  | 0, iteration, currentData => (currentData, iteration)
  | fuel + 1, iteration, currentData =>
    let (newFile, foundPaste) := snippetPass localSnippets snippets currentData
    if foundPaste then snippetLoopF localSnippets snippets fuel (iteration + 1) newFile
    else (newFile, iteration + 1)

/-- The iteration of `ProcessSnippets` started at `iteration = 0`. -/
def snippetLoop (localSnippets snippets : SnipMap) (currentData : List Str) :
    List Str × Nat :=
  snippetLoopF localSnippets snippets 10 0 currentData

/-- `processor.ProcessSnippets`: local scan, cut removal, then iterative
paste expansion against local-then-global tables. -/
def processSnippets (content : List Str) (snippets : SnipMap) : List Str :=
  let st := localScan content content 0 ⟨[], 0, [], []⟩
  let currentData := removeCutRegions content st.cutRanges
  (snippetLoop st.localSnippets snippets currentData).1

/-! ## Frontmatter (`types/fileinfo.go`: `parseFrontmatter`,
`parseSimpleYAML`) -/

/-- One line of `parseSimpleYAML`: trim, skip blank lines and `#` comments,
split at the first `:` (`strings.SplitN(line, ":", 2)`), trim key and value,
strip one layer of matching quotes. -/
def yamlPairOf (line : Str) : Option (Str × Str) :=
  let line := trimSpace line
  if line = [] || hasPrefix line ['#'] then none
  else
    match line.findIdx? (· = ':') with
    | none => none
    | some colonIdx =>
      let key := trimSpace (line.take colonIdx)
      let value := trimSpace (line.drop (colonIdx + 1))
      let value :=
        if value.length ≥ 2 &&
            ((value.headD ' ' = '"' && value.getLastD ' ' = '"') ||
             (value.headD ' ' = '\'' && value.getLastD ' ' = '\'')) then
          (value.drop 1).dropLast
        else value
      some (key, value)

/-- One step of `parseSimpleYAML`'s loop over the lines. -/
def yamlStep (metadata : VarMap) (line : Str) : VarMap :=
  match yamlPairOf line with
  | some (k, v) => vinsert metadata k v
  | none => metadata

/-- `types.parseSimpleYAML`. -/
def parseSimpleYAML (yamlContent : Str) : VarMap :=
  (splitNl yamlContent).foldl yamlStep []

/-- The `for i := 1; i < len(lines)` search for the closing `---`.  Called
on `lines.drop 1` with start index 1. -/
def findCloseIdx : List Str → Nat → Option Nat
  | [], _ => none
  | l :: ls, i => if l = "---".data then some i else findCloseIdx ls (i + 1)

/-- `types.parseFrontmatter`: returns (content, metadata). -/
def parseFrontmatter (lines : List Str) : List Str × VarMap :=
  if lines = [] then (lines, [])
  else if lines.headD [] ≠ "---".data then (lines, [])
  else
    match findCloseIdx (lines.drop 1) 1 with
    | none => (lines, [])   -- no closing ---, return original content
    | some endIdx =>
      let yamlLines := (lines.drop 1).take (endIdx - 1)
      let yamlContent := joinNl yamlLines
      let metadata := if yamlContent ≠ [] then parseSimpleYAML yamlContent else []
      let content := lines.drop (endIdx + 1)
      (content, metadata)

/-! ## Sort keys and dates (`processor/index_helpers.go`) -/

/-- A Go `float64` sort key, modelled with an exact rational payload. -/
inductive GoFloat where
  | finite (q : ℚ)
  | pinf
  | ninf
  | nan
  deriving DecidableEq, Repr

/-- Go `<` on float64 (any comparison with NaN is false). -/
def gflt : GoFloat → GoFloat → Bool
  | .finite a, .finite b => a < b
  | .finite _, .pinf => true
  | .ninf, .finite _ => true
  | .ninf, .pinf => true
  | _, _ => false

/-- Go `>` on float64. -/
def ggt (a b : GoFloat) : Bool := gflt b a

/-- Is the character an ASCII digit? -/
def isDigitCh (c : Char) : Bool := '0' ≤ c && c ≤ '9'

/-- Numeric value of a digit string. -/
def digitsVal (s : Str) : Nat :=
  s.foldl (fun acc c => acc * 10 + (c.toNat - '0'.toNat)) 0

/-- `getnum(value, true)`: exactly two digits. -/
def getnum2 (s : Str) : Option (Nat × Str) :=
  match s with
  | c1 :: c2 :: rest =>
    if isDigitCh c1 && isDigitCh c2 then some (digitsVal [c1, c2], rest) else none
  | _ => none

/-- `getnum(value, false)`: one or two digits. -/
def getnum1or2 (s : Str) : Option (Nat × Str) :=
  match s with
  | c1 :: c2 :: rest =>
    if isDigitCh c1 then
      if isDigitCh c2 then some (digitsVal [c1, c2], rest)
      else some (digitsVal [c1], c2 :: rest)
    else none
  | [c1] => if isDigitCh c1 then some (digitsVal [c1], []) else none
  | [] => none

/-- `stdLongYear`: exactly four digits. -/
def getnum4 (s : Str) : Option (Nat × Str) :=
  match s with
  | c1 :: c2 :: c3 :: c4 :: rest =>
    if isDigitCh c1 && isDigitCh c2 && isDigitCh c3 && isDigitCh c4 then
      some (digitsVal [c1, c2, c3, c4], rest)
    else none
  | _ => none

/-- The month-name tables of Go's `time` package. -/
def shortMonthNames : List Str :=
  ["Jan".data, "Feb".data, "Mar".data, "Apr".data, "May".data, "Jun".data,
   "Jul".data, "Aug".data, "Sep".data, "Oct".data, "Nov".data, "Dec".data]

def longMonthNames : List Str :=
  ["January".data, "February".data, "March".data, "April".data, "May".data,
   "June".data, "July".data, "August".data, "September".data, "October".data,
   "November".data, "December".data]

/-- Go `time`'s `lookup`: case-insensitive prefix match against a name
table; returns (1-based index, rest). -/
def monthLookup (names : List Str) (s : Str) : Option (Nat × Str) :=
  go names 1 s
where
  go : List Str → Nat → Str → Option (Nat × Str)
    | [], _, _ => none
    | n :: ns, idx, s =>
      if asciiLower (s.take n.length) = asciiLower n && s.length ≥ n.length then
        some (idx, s.drop n.length)
      else go ns (idx + 1) s

/-- Days in a month (`daysIn`), honouring leap years. -/
def daysIn (month : Nat) (year : Nat) : Nat :=
  if month = 2 then
    if year % 4 = 0 && (year % 100 ≠ 0 || year % 400 = 0) then 29 else 28
  else if month = 4 || month = 6 || month = 9 || month = 11 then 30
  else 31

/-- Days since 1970-01-01 of a civil date (proleptic Gregorian). -/
def daysFromCivil (y m d : Int) : Int :=
  let y' := if m ≤ 2 then y - 1 else y
  let era := Int.fdiv y' 400
  let yoe := y' - era * 400
  let mp := if m > 2 then m - 3 else m + 9
  let doy := Int.fdiv (153 * mp + 2) 5 + d - 1
  let doe := yoe * 365 + Int.fdiv yoe 4 - Int.fdiv yoe 100 + doy
  era * 146097 + doe - 719468

/-- A layout token of the Go reference-time layouts used in
`parseDateToTimestamp`. -/
inductive LayTok where
  | y4        -- "2006"
  | m2        -- "01" (two digits)
  | d2        -- "02" (two digits)
  | monShort  -- "Jan"
  | monLong   -- "January"
  | hr        -- "15" (one or two digits)
  | min2      -- "04"
  | sec2      -- "05"
  | lit (c : Char)
  deriving DecidableEq, Repr

/-- Parsed date-time fields (defaults: year 0, month 1, day 1, 00:00:00). -/
structure DateParts where
  year : Nat := 0
  month : Nat := 1
  day : Nat := 1
  hour : Nat := 0
  minute : Nat := 0
  second : Nat := 0
  deriving DecidableEq, Repr

/-- Run a token list over the input, as Go `time.Parse` consumes the layout. -/
def runLayout : List LayTok → Str → DateParts → Option DateParts
  | [], s, p => if s = [] then some p else none  -- trailing extra text is an error
  | tok :: toks, s, p =>
    match tok with
    | .y4 => (getnum4 s).bind fun (n, rest) => runLayout toks rest { p with year := n }
    | .m2 => (getnum2 s).bind fun (n, rest) => runLayout toks rest { p with month := n }
    | .d2 => (getnum2 s).bind fun (n, rest) => runLayout toks rest { p with day := n }
    | .monShort =>
      (monthLookup shortMonthNames s).bind fun (n, rest) =>
        runLayout toks rest { p with month := n }
    | .monLong =>
      (monthLookup longMonthNames s).bind fun (n, rest) =>
        runLayout toks rest { p with month := n }
    | .hr => (getnum1or2 s).bind fun (n, rest) => runLayout toks rest { p with hour := n }
    | .min2 => (getnum2 s).bind fun (n, rest) => runLayout toks rest { p with minute := n }
    | .sec2 => (getnum2 s).bind fun (n, rest) => runLayout toks rest { p with second := n }
    | .lit c =>
      match s with
      | c' :: rest => if c' = c then runLayout toks rest p else none
      | [] => none

/-- Go `time.Parse`'s final range validation for the fields our layouts
use. -/
def validDate (p : DateParts) : Bool :=
  1 ≤ p.month && p.month ≤ 12 && 1 ≤ p.day && p.day ≤ daysIn p.month p.year &&
    p.hour ≤ 23 && p.minute ≤ 59 && p.second ≤ 59

/-- Parse one layout and convert to a Unix timestamp (UTC). -/
def parseWithLayout (toks : List LayTok) (s : Str) : Option Int :=
  match runLayout toks s {} with
  | some p =>
    if validDate p then
      some (daysFromCivil p.year p.month p.day * 86400 +
        p.hour * 3600 + p.minute * 60 + p.second)
    else none
  | none => none

/-- The ordered list of date formats of `parseDateToTimestamp`. -/
def dateLayouts : List (List LayTok) :=
  [ [.y4, .lit '-', .m2, .lit '-', .d2],                     -- "2006-01-02"
    [.y4, .lit '/', .m2, .lit '/', .d2],                     -- "2006/01/02"
    [.m2, .lit '/', .d2, .lit '/', .y4],                     -- "01/02/2006"
    [.d2, .lit '/', .m2, .lit '/', .y4],                     -- "02/01/2006"
    [.monShort, .lit ' ', .d2, .lit ' ', .y4],               -- "Jan 02 2006"
    [.monLong, .lit ' ', .d2, .lit ' ', .y4],                -- "January 02 2006"
    [.monShort, .lit ' ', .d2, .lit ',', .lit ' ', .y4],     -- "Jan 02, 2006"
    [.monLong, .lit ' ', .d2, .lit ',', .lit ' ', .y4],      -- "January 02, 2006"
    [.d2, .lit ' ', .monShort, .lit ' ', .y4],               -- "02 Jan 2006"
    [.d2, .lit ' ', .monLong, .lit ' ', .y4],                -- "02 January 2006"
    [.y4, .lit '-', .m2, .lit '-', .d2, .lit ' ', .hr, .lit ':', .min2, .lit ':', .sec2],
                                                             -- "2006-01-02 15:04:05"
    [.y4, .lit '-', .m2, .lit '-', .d2, .lit ' ', .hr, .lit ':', .min2] ]
                                                             -- "2006-01-02 15:04"

/-- `processor.parseDateToTimestamp`: first matching format wins; epoch 0 if
none match. -/
def parseDateToTimestamp (dateStr : Str) : ℚ :=
  go dateLayouts
where
  go : List (List LayTok) → ℚ
    | [] => 0
    | l :: ls =>
      match parseWithLayout l dateStr with
      | some t => (t : ℚ)
      | none => go ls

/-! ## `strconv.ParseFloat` (the `err == nil` cases, with an exact rational
result) -/

def isHexDigitCh (c : Char) : Bool :=
  isDigitCh c || ('a' ≤ c.toLower && c.toLower ≤ 'f')

def hexVal (c : Char) : Nat :=
  if isDigitCh c then c.toNat - '0'.toNat else c.toLower.toNat - 'a'.toNat + 10

/-- `strconv`'s `underscoreOK`: underscores only between a base prefix /
digit and a digit. -/
def underscoreOK (s : Str) : Bool :=
  let s := match s with
    | c :: rest => if c = '-' || c = '+' then rest else c :: rest
    | [] => []
  let (hex, s) := match s with
    | '0' :: c :: rest =>
      if c.toLower = 'x' then (true, rest) else (false, '0' :: c :: rest)
    | other => (false, other)
  -- saw: '0' = digit (or base prefix), '_' = underscore, '!' = other, '^' = start
  let start : Char := if hex then '0' else '^'
  go hex s start
where
  go (hex : Bool) : Str → Char → Bool
    | [], saw => saw ≠ '_'
    | c :: rest, saw =>
      if isDigitCh c || (hex && isHexDigitCh c) then go hex rest '0'
      else if c = '_' then (saw = '0' && go hex rest '_')
      else if saw = '_' then false
      else go hex rest '!'

/-- Digits (with underscores removed) interpreted in the given base. -/
def digitsValBase (base : Nat) (s : Str) : Nat :=
  s.foldl (fun acc c => if c = '_' then acc else acc * base + hexVal c) 0

/-- Split a mantissa at the optional dot.  Returns (integer part, fraction
part) if the shape is valid (at most one dot, at least one digit overall). -/
def splitMantissa (digitOK : Char → Bool) (s : Str) : Option (Str × Str) :=
  let intPart := s.takeWhile (fun c => digitOK c || c = '_')
  let rest := s.drop intPart.length
  match rest with
  | [] => if (intPart.filter digitOK) = [] then none else some (intPart, [])
  | '.' :: rest2 =>
    let fracPart := rest2.takeWhile (fun c => digitOK c || c = '_')
    if rest2.drop fracPart.length ≠ [] then none
    else if (intPart.filter digitOK) = [] && (fracPart.filter digitOK) = [] then none
    else some (intPart, fracPart)
  | _ => none

/-- Parse a (signed) decimal exponent suffix `e±dd` / `p±dd`. -/
def parseExpPart (s : Str) : Option Int :=
  let (sign, t) : Int × Str := match s with
    | '+' :: r => (1, r)
    | '-' :: r => (-1, r)
    | r => (1, r)
  if t ≠ [] && t.all (fun c => isDigitCh c || c = '_') && t.headD ' ' ≠ '_' &&
      (t.filter isDigitCh) ≠ [] then
    some (sign * (digitsValBase 10 t : Int))
  else none

/-- Number of real (non-underscore) digits. -/
def realDigits (digitOK : Char → Bool) (s : Str) : Nat := (s.filter digitOK).length

/-- `strconv.ParseFloat(s, 64)` restricted to the `err == nil` outcomes,
keeping the mathematical value exactly.  Overflow beyond float64 range is a
range error in Go (`err != nil`), hence `none` here; an underflowing value is
returned (as its exact nonzero rational) without error by Go's fallback
conversion, so it is `some` here.  Rounding to nearest float64 is monotone,
so relative order of distinct values is preserved by the exact model. -/
def goParseFloat (s : Str) : Option GoFloat :=
  match s with
  | [] => none
  | _ =>
    let lower := asciiLower s
    if lower = "inf".data || lower = "infinity".data ||
        lower = "+inf".data || lower = "+infinity".data then some .pinf
    else if lower = "-inf".data || lower = "-infinity".data then some .ninf
    else if lower = "nan".data then some .nan
    else if !underscoreOK s then none
    else
      let (sign, t) : ℚ × Str := match s with
        | '+' :: r => (1, r)
        | '-' :: r => (-1, r)
        | r => (1, r)
      let num : Option ℚ :=
        match t with
        | '0' :: x :: rest =>
          if x.toLower = 'x' then
            -- hexadecimal mantissa, mandatory binary exponent p
            let mant := rest.takeWhile (fun c => isHexDigitCh c || c = '_' || c = '.')
            let expPart := rest.drop mant.length
            match splitMantissa isHexDigitCh mant, expPart with
            | some (ip, fp), p :: e =>
              if p.toLower = 'p' then
                (parseExpPart e).map fun exp =>
                  (digitsValBase 16 (ip ++ fp) : ℚ) *
                    (2 : ℚ) ^ (exp - 4 * (realDigits isHexDigitCh fp : Int))
              else none
            | _, _ => none
          else decimalValue t
        | _ => decimalValue t
      match num with
      | none => none
      | some q =>
        let v := sign * q
        -- |v| at or beyond the float64 overflow threshold is ErrRange
        if |v| ≥ (2 ^ 1024 - 2 ^ 970 : ℚ) then none else some (.finite v)
where
  /-- Value of a decimal literal `ddd[.ddd][e±dd]`. -/
  decimalValue (t : Str) : Option ℚ :=
    let mant := t.takeWhile (fun c => isDigitCh c || c = '_' || c = '.')
    let expPart := t.drop mant.length
    match splitMantissa isDigitCh mant with
    | none => none
    | some (ip, fp) =>
      let base := (digitsValBase 10 (ip ++ fp) : ℚ)
      match expPart with
      | [] => some (base * (10 : ℚ) ^ (0 - (realDigits isDigitCh fp : Int)))
      | e :: rest =>
        if e.toLower = 'e' then
          (parseExpPart rest).map fun exp =>
            base * (10 : ℚ) ^ (exp - (realDigits isDigitCh fp : Int))
        else none

/-- The content hash of `getSortKey` (`hash = hash*31 + float64(char)` over
the lowercased string), kept exact. -/
def contentHash (value : Str) : ℚ :=
  (asciiLower value).foldl (fun h c => h * 31 + (c.toNat : ℚ)) 0

/-- Is the sort field date-like (`date`, `created`, `modified`,
`published`, compared case-insensitively)? -/
def isDateField (sortField : Str) : Bool :=
  asciiLower sortField = "date".data || asciiLower sortField = "created".data ||
    asciiLower sortField = "modified".data || asciiLower sortField = "published".data

/-- `processor.getSortKey`.  In this pipeline every metadata value is a
string (produced by `parseSimpleYAML` / `loadFileMetadata`), so the Go
`float64`/`int` type-assertion branches never fire and `fmt.Sprintf("%v")`
is the identity. -/
def getSortKey (metadata : VarMap) (sortField : Str) : GoFloat :=
  match vget metadata sortField with
  | none => .finite 0
  | some value =>
    if isDateField sortField then .finite (parseDateToTimestamp value)
    else if value ≠ [] then
      match goParseFloat value with
      | some f => f
      | none => .finite (contentHash value)
    else .finite (contentHash value)

/-- The comparator passed to `sort.Slice` by `sortFileData`. -/
def fdLess (sortField : Str) (a b : VarMap) : Bool :=
  if isDateField sortField then ggt (getSortKey a sortField) (getSortKey b sortField)
  else gflt (getSortKey a sortField) (getSortKey b sortField)

/-- Insertion step for the model of `sort.Slice`. -/
def ownInsert (less : α → α → Bool) (x : α) : List α → List α
  | [] => [x]
  | y :: ys => if less x y then x :: y :: ys else y :: ownInsert less x ys

/-- Model of `sort.Slice`: produces a permutation of the input that is
sorted for the comparator (the contract `sort.Slice` guarantees for a
strict-weak-order comparator). -/
def ownSort (less : α → α → Bool) : List α → List α
  | [] => []
  | x :: xs => ownInsert less x (ownSort less xs)

/-- `processor.sortFileData`. -/
def sortFileData (fileData : List VarMap) (sortField : Str) : List VarMap :=
  ownSort (fdLess sortField) fileData

/-! ## Index expansion (`processor.processIndexTemplate`,
`processor.ProcessIndexCommands`) -/

/-- `processor.processIndexTemplate`.  Metadata values are strings, so the
`fmt.Sprintf("%v", v)` conversion building `fileVars` is the identity. -/
def processIndexTemplate (templateContent : List Str) (fileMetadata : VarMap)
    (snippets : SnipMap) (globals : VarMap) : Str :=
  processContentWithDirectives
    (joinNl (templateContent.flatMap fun line =>
      match parseLine line 0 with
      | some d =>
        if d.kind = .paste then
          match sget snippets d.name with
          | some snippetContent =>
            splitNl (processContentWithDirectives (joinNl snippetContent) fileMetadata globals)
          | none => [line]
        else [line]
      | none => [line]))
    fileMetadata globals

/-- The filesystem interactions of `ProcessIndexCommands`, supplied by the
caller: `findMatchingFiles` (`none` models a glob error) and
`loadFileMetadata` (`none` models a read error, skipping the file). -/
structure IndexEnv where
  findMatchingFiles : Str → Option (List Str)
  loadFileMetadata : Str → Option VarMap

/-- `processor.ProcessIndexCommands`. -/
def processIndexCommands (env : IndexEnv) (templates snippets : SnipMap)
    (globals : VarMap) (content : List Str) : List Str :=
  go content 0
where
  go : List Str → Nat → List Str
    | [], _ => []
    | line :: rest, i =>
      let tail := go rest (i + 1)
      match parseLine line i with
      | some d =>
        if d.kind = .index then
          match d.args with
          | pattern :: templateName :: restArgs =>
            let sortField := restArgs.headD []
            match sget templates templateName with
            | none => line :: tail          -- undefined template: line kept
            | some templateContent =>
              match env.findMatchingFiles pattern with
              | none => line :: tail        -- glob error: line kept
              | some matchingFiles =>
                let fileData := matchingFiles.filterMap env.loadFileMetadata
                let fileData :=
                  if sortField ≠ [] && fileData ≠ [] then sortFileData fileData sortField
                  else fileData
                (fileData.flatMap fun fileMeta =>
                  splitNl (processIndexTemplate templateContent fileMeta snippets globals)) ++ tail
          | _ => line :: tail               -- fewer than two arguments
        else line :: tail
      | none => line :: tail

/-! ## `processor.ProcessVariables` (the content pipeline, up to but not
including the filesystem write) -/

/-- `strings.ReplaceAll` with a nonempty pattern (fuel `length + 1` is
never exhausted since each step consumes at least one character). -/
def replaceAllGoF (old new : Str) : Nat → Str → Str
  | 0, s => s
  | _ + 1, [] => []
  | fuel + 1, c :: rest =>
    if hasPrefix (c :: rest) old && old ≠ [] then
      new ++ replaceAllGoF old new fuel ((c :: rest).drop old.length)
    else c :: replaceAllGoF old new fuel rest

/-- `strings.ReplaceAll` (with an empty pattern, Go inserts `new` at every
boundary). -/
def replaceAllStr (s old new : Str) : Str :=
  match old with
  | [] => interleave s
  | _ :: _ => replaceAllGoF old new (s.length + 1) s
where
  interleave : Str → Str
    | [] => new
    | c :: rest => new ++ c :: interleave rest

/-- `processor.ProcessVariables`, modelled up to the produced output lines
(the directory creation, image processing and file write are I/O).  Only
string-valued metadata entries are merged into `allVars` in Go; in this
pipeline all metadata values are strings. -/
def processVariablesContent (content : List Str) (metadata : VarMap)
    (templates snippets : SnipMap) (globals : VarMap) : List Str :=
  let directives := parseDirectives content
  let localVars := directives.foldl
    (fun lv d => if d.kind = .set then vinsert lv d.name (d.args.headD []) else lv) []
  -- globals, overridden by locals, overridden by metadata
  let allVars := vmerge (vmerge globals localVars) metadata
  let finalContent := content.enum.filterMap fun p =>
    let (i, line) := p
    let isDirective := directives.any fun d =>
      d.lineIndex = i &&
        (d.kind = .set || d.kind = .globalv || d.kind = .paste ||
         d.kind = .include || d.kind = .index)
    if isDirective then none else some (expandVariables line allVars)
  let templateName :=
    match vget localVars "template".data with
    | some t => t
    | none =>
      match vget allVars "template".data with
      | some t => t
      | none => []
  if templateName ≠ [] then
    match sget templates templateName with
    | some templateContent =>
      let processedTemplate := templateContent.flatMap fun line =>
        match parseLine line 0 with
        | some d =>
          if d.kind = .paste then
            match sget snippets d.name with
            | some snippetContent =>
              splitNl (processContentWithDirectives (joinNl snippetContent) localVars allVars)
            | none => [line]
          else [line]
        | none => [line]
      let templateContentStr := joinNl processedTemplate
      let fileContentStr := joinNl finalContent
      let processedFileContent := processContentWithDirectives fileContentStr localVars allVars
      let templateWithContent :=
        replaceAllStr templateContentStr "{{content}}".data processedFileContent
      splitNl (processContentWithDirectives templateWithContent localVars allVars)
    | none => finalContent   -- template named but not found: only a warning
  else
    splitNl (processContentWithDirectives (joinNl finalContent) localVars allVars)

/-! ## Helper lemmas -/

theorem identChar_not_uniSpace {c : Char} (h : identChar c = true) :
    isUniSpace c = false := by
  cases hsp : isUniSpace c with
  | false => rfl
  | true =>
    exfalso
    simp only [isUniSpace, Bool.or_eq_true, decide_eq_true_eq] at hsp
    rcases hsp with ((((h1 | h1) | h1) | h1) | h1) | h1 <;> subst h1 <;>
      exact absurd h (by decide)

theorem dropWhile_eq_self_of_not {s : Str} (h : ∀ c ∈ s, isUniSpace c = false) :
    s.dropWhile isUniSpace = s := by
  cases s with
  | nil => rfl
  | cons c cs => simp [List.dropWhile_cons, h c (by simp)]

theorem trimSpace_of_no_space {s : Str} (h : ∀ c ∈ s, isUniSpace c = false) :
    trimSpace s = s := by
  unfold trimSpace
  rw [dropWhile_eq_self_of_not h,
    dropWhile_eq_self_of_not (by intro c hc; exact h c (List.mem_reverse.mp hc)),
    List.reverse_reverse]

theorem trimSpace_of_all_ident {s : Str} (h : ∀ c ∈ s, identChar c = true) :
    trimSpace s = s :=
  trimSpace_of_no_space (fun c hc => identChar_not_uniSpace (h c hc))

/-! ## C1 -/

/-- C1: the spec (and the repository README's "Variable Priority") require a
`set`-directive value to override a frontmatter metadata value, which in turn
overrides a global default.  The code builds `allVars` in `ProcessVariables`
by inserting the metadata *after* the locals, and the first substitution pass
(`parser.ExpandVariables` over each line) consumes that map, so a frontmatter
value in fact overrides a `set` value: with `set title A`, frontmatter
`title: B` and global `title C`, the emitted body is `Hello B`, not
`Hello A`. -/
theorem c1_frontmatter_overrides_set :
    processVariablesContent
      ["<!-- set title A -->".data, "Hello {{title}}".data]
      [("title".data, "B".data)] [] [] [("title".data, "C".data)]
      = ["Hello B".data] ∧ "B".data ≠ "A".data := by
  constructor
  · decide
  · decide

/-! ## C3 -/

/-- C3 counterexample: a `copy` block whose `end` sentinel never appears is
*not* committed by the Collector — `CollectSnippetsFromFile` leaves both
tables unchanged (here: empty), where the claim requires `a ↦ ["x"]`. -/
theorem c3_counterexample_unclosed_block_discarded :
    collectSnippetsFromFile ["<!-- copy a -->".data, "x".data] [] [] = ([], []) ∧
    sget (collectSnippetsFromFile ["<!-- copy a -->".data, "x".data] [] []).1 "a".data
      = none := by
  constructor
  · decide
  · decide

theorem collectGo_no_blockEnd (lines : List Str) :
    ∀ (i : Nat) (stack : List StackItem) (snippets templates : SnipMap),
    (∀ l ∈ lines, isBlockEnd l = false) →
    collectGo lines i stack snippets templates = (snippets, templates) := by
  induction lines with
  | nil => intro i stack snippets templates _; rfl
  | cons line rest ih =>
    intro i stack snippets templates h
    have hline : isBlockEnd line = false := h line (by simp)
    have hrest : ∀ l ∈ rest, isBlockEnd l = false := fun l hl => h l (by simp [hl])
    unfold collectGo
    cases hp : parseLine line i with
    | none => exact ih (i + 1) _ _ _ hrest
    | some d =>
      by_cases hk : (d.kind = DKind.copy || d.kind = DKind.cut || d.kind = DKind.template) = true
      · simp only [hk, if_true]
        exact ih (i + 1) _ _ _ hrest
      · simp only [Bool.not_eq_true] at hk
        simp only [hk, hline, Bool.false_and, Bool.false_eq_true, if_false]
        exact ih (i + 1) _ _ _ hrest

/-- C3 (amended): the Collector commits a block only when its end sentinel
appears; an unclosed block at EOF is discarded.  In particular a file with no
block-end sentinel at all leaves the snippet and template tables untouched,
whatever `copy`/`cut`/`template` blocks it opens. -/
theorem c3_amended_no_sentinel_no_commit
    (lines : List Str) (snippets templates : SnipMap)
    (h : ∀ l ∈ lines, isBlockEnd l = false) :
    collectSnippetsFromFile lines snippets templates = (snippets, templates) :=
  collectGo_no_blockEnd lines 0 [] snippets templates h

/-- Witness for `c3_amended_no_sentinel_no_commit`. -/
theorem c3_amended_witness :
    collectSnippetsFromFile ["<!-- copy a -->".data, "x".data] [("old".data, [])] []
      = ([("old".data, [])], []) :=
  c3_amended_no_sentinel_no_commit _ _ _ (by decide)

/-! ## C4 -/

/-- Modelled from the spec: "Stop when a pass makes no substitution".  The
number of paste substitutions a pass performs over the given lines — paste
directives whose name is defined in the local or global table (the
substitutions actually carried out). -/
def pasteSubstitutionsInPass (loc glob : SnipMap) (lines : List Str) : Nat :=
  lines.countP fun line =>
    match parseLine line 0 with
    | some d =>
      d.kind = .paste && ((sget loc d.name).isSome || (sget glob d.name).isSome)
    | none => false

/-- C4 counterexample: on a single undefined `paste`, the first pass performs
no paste substitution, yet the loop does not stop after that pass — it takes
a second pass (the loop's stop test is "no paste directive seen", and a
dropped undefined paste directive still counts as seen). -/
theorem c4_counterexample_undefined_paste_extra_pass :
    pasteSubstitutionsInPass [] [] ["<!-- paste nope -->".data] = 0 ∧
    snippetLoop [] [] ["<!-- paste nope -->".data] = ([], 2) := by
  constructor
  · decide
  · decide

/-- C4 (amended): the iterative paste expansion always stops within the cap
of 10 passes, and it stops as soon as a full pass *encounters no paste
directive* (substituted or dropped); a pass that encounters only undefined
paste directives performs no substitution but still triggers one further
pass. -/
theorem c4_amended_termination
    (loc glob : SnipMap) (data : List Str) :
    (snippetLoop loc glob data).2 ≤ 10 ∧
    ((snippetPass loc glob data).2 = false →
      snippetLoop loc glob data = ((snippetPass loc glob data).1, 1)) := by
  constructor
  · have key : ∀ (fuel iter : Nat) (d : List Str),
        (snippetLoopF loc glob fuel iter d).2 ≤ fuel + iter := by
      intro fuel
      induction fuel with
      | zero => intro iter d; simp [snippetLoopF]
      | succ n ihn =>
        intro iter d
        simp only [snippetLoopF]
        rcases hp : snippetPass loc glob d with ⟨nf, f⟩
        cases f with
        | true =>
          simpa using le_trans (ihn (iter + 1) nf) (by omega)
        | false => simp; omega
    simpa using key 10 0 data
  · intro h
    rcases hp : snippetPass loc glob data with ⟨nf, f⟩
    rw [hp] at h
    simp only at h
    subst h
    simp [snippetLoop, snippetLoopF, hp]

/-- Witness for `c4_amended_termination`. -/
theorem c4_amended_witness :
    (snippetLoop [] [] ["hello".data]).2 ≤ 10 ∧
    snippetLoop [] [] ["hello".data] = (["hello".data], 1) :=
  ⟨(c4_amended_termination [] [] ["hello".data]).1,
   (c4_amended_termination [] [] ["hello".data]).2 (by decide)⟩

/-! ## C5 -/

/-- C5: a `paste` directive is resolved preferring the file-local snippet
table (which shadows the global table), falling back to the global table,
and otherwise the directive line is dropped, producing no output. -/
theorem c5_paste_precedence
    (loc glob : SnipMap) (line : Str) (rest : List Str) (d : Directive)
    (hp : parseLine line 0 = some d) (hk : d.kind = .paste) :
    snippetPass loc glob (line :: rest) =
      ((match sget loc d.name with
        | some b => b
        | none =>
          match sget glob d.name with
          | some b => b
          | none => []) ++ (snippetPass loc glob rest).1, true) := by
  rcases ht : snippetPass loc glob rest with ⟨tail, f⟩
  simp only [snippetPass, ht, hp, hk]
  cases hl : sget loc d.name with
  | some b => simp
  | none =>
    cases hg : sget glob d.name with
    | some b => simp
    | none => simp

/-- Witness for `c5_paste_precedence`: a local snippet shadows the global
one of the same name. -/
theorem c5_witness :
    snippetPass [("nav".data, ["LOCAL".data])] [("nav".data, ["GLOBAL".data])]
      ["<!-- paste nav -->".data] = (["LOCAL".data], true) := by
  have h := c5_paste_precedence [("nav".data, ["LOCAL".data])]
    [("nav".data, ["GLOBAL".data])] "<!-- paste nav -->".data []
    { kind := .paste, name := "nav".data, lineIndex := 0 } (by decide) rfl
  rw [h]
  decide

/-! ## C7 -/

/-- C7: a conditional is truthy exactly when the name is defined (locals
shadowing metadata) with a value that is nonempty and neither `"false"` nor
`"0"`; and `!name` evaluates to the exact boolean complement of `name`. -/
theorem c7_truthiness_negation
    (loc meta : VarMap) (name : Str) (hv : validIdent name = true) :
    evalCondition loc meta ('!' :: name) = (!evalCondition loc meta name) ∧
    (evalCondition loc meta name = true ↔
      ∃ v, (match vget loc name with
            | some v' => some v'
            | none => vget meta name) = some v ∧
        v ≠ [] ∧ v ≠ "false".data ∧ v ≠ "0".data) := by
  have hall : ∀ c ∈ name, identChar c = true := by
    simp only [validIdent, Bool.and_eq_true, List.all_eq_true, decide_eq_true_eq] at hv
    exact fun c hc => hv.2 c hc
  have hne : name ≠ [] := by
    simp only [validIdent, Bool.and_eq_true] at hv
    simpa using hv.1
  have hnotbang : hasPrefix name ['!'] = false := by
    cases name with
    | nil => simp at hne
    | cons c cs =>
      cases hcb : decide (c = '!') with
      | false =>
        simp only [hasPrefix, List.prefix_cons_iff] at *
        have hcne : ¬('!' = c) := fun h => of_decide_eq_false hcb h.symm
        simp [List.cons_prefix_cons, hcne]
      | true =>
        exfalso
        have : c = '!' := of_decide_eq_true hcb
        subst this
        exact absurd (hall '!' (by simp)) (by decide)
  have htrim : trimSpace name = name := trimSpace_of_all_ident hall
  constructor
  · simp only [evalCondition, hasPrefix, List.cons_prefix_cons]
    simp only [hasPrefix] at hnotbang
    simp [isFalse, htrim, hnotbang]
  · simp only [evalCondition, hnotbang, Bool.false_eq_true, if_false]
    simp only [isTrue]
    cases hl : vget loc name with
    | some v =>
      simp only [hl]
      constructor
      · intro h
        refine ⟨v, rfl, ?_⟩
        have h' := h
        simp only [Bool.and_eq_true, decide_eq_true_eq, ne_eq] at h'
        exact ⟨h'.1.1, h'.1.2, h'.2⟩
      · rintro ⟨v', hv', h1, h2, h3⟩
        obtain rfl : v = v' := by simpa using hv'
        simp [h1, h2, h3]
    | none =>
      simp only [hl]
      cases hm : vget meta name with
      | some v =>
        constructor
        · intro h
          refine ⟨v, rfl, ?_⟩
          have h' := h
          simp only [Bool.and_eq_true, decide_eq_true_eq, ne_eq] at h'
          exact ⟨h'.1.1, h'.1.2, h'.2⟩
        · rintro ⟨v', hv', h1, h2, h3⟩
          obtain rfl : v = v' := by simpa using hv'
          simp [h1, h2, h3]
      | none => simp

/-- Witness for `c7_truthiness_negation`. -/
theorem c7_witness :
    evalCondition [] [("draft".data, "false".data)] ('!' :: "draft".data)
        = (!evalCondition [] [("draft".data, "false".data)] "draft".data) ∧
    (evalCondition [] [("draft".data, "false".data)] "draft".data = true ↔
      ∃ v, (match vget [] "draft".data with
            | some v' => some v'
            | none => vget [("draft".data, "false".data)] "draft".data) = some v ∧
        v ≠ [] ∧ v ≠ "false".data ∧ v ≠ "0".data) :=
  c7_truthiness_negation [] [("draft".data, "false".data)] "draft".data (by decide)

/-! ## C8 -/

/-- C8: an `index` directive whose template name is not in the template
table leaves the directive line in the content unchanged (passed through,
neither expanded nor deleted). -/
theorem c8_unknown_template_passthrough
    (env : IndexEnv) (templates snippets : SnipMap) (globals : VarMap)
    (line : Str) (rest : List Str) (i : Nat) (d : Directive)
    (pattern templateName : Str) (restArgs : List Str)
    (hp : parseLine line i = some d) (hk : d.kind = .index)
    (ha : d.args = pattern :: templateName :: restArgs)
    (ht : sget templates templateName = none) :
    processIndexCommands.go env templates snippets globals (line :: rest) i =
      line :: processIndexCommands.go env templates snippets globals rest (i + 1) := by
  simp only [processIndexCommands.go, hp, hk, ha, ht, if_true]

/-- Witness for `c8_unknown_template_passthrough`. -/
theorem c8_witness :
    processIndexCommands.go ⟨fun _ => some [], fun _ => none⟩ [] [] []
        ["<!-- index blog/*.md item date -->".data] 0 =
      ["<!-- index blog/*.md item date -->".data] := by
  have h := c8_unknown_template_passthrough ⟨fun _ => some [], fun _ => none⟩ [] [] []
    "<!-- index blog/*.md item date -->".data [] 0
    { kind := .index, args := ["blog/*.md".data, "item".data, "date".data], lineIndex := 0 }
    "blog/*.md".data "item".data ["date".data] (by decide) rfl rfl rfl
  rw [h]
  rfl

/-! ## C9 -/

/-- C9: the directive parser is total and never errors.  `parseLine` factors
through `dispatchCommand` over the whitespace-split directive content; for
each of the six name-carrying commands, a missing name parses to `none`
(plain text), a name with a character outside `[-\w.]` parses to `none`, and
`set`/`global` with a valid name but no value parse with the value
defaulting to the literal `"true"`. -/
theorem c9_parser_totality :
    (∀ (line : Str) (i : Nat),
      parseLine line i =
        match directiveContent (trimSpace line) with
        | none => none
        | some content => dispatchCommand (fields content) i) ∧
    (∀ cmd ∈ ["copy".data, "cut".data, "paste".data, "set".data,
              "global".data, "template".data],
      (∀ i : Nat, dispatchCommand [cmd] i = none) ∧
      (∀ (name : Str) (rest : List Str) (i : Nat), validIdent name = false →
        dispatchCommand (cmd :: name :: rest) i = none)) ∧
    (∀ (name : Str) (i : Nat), validIdent name = true →
      dispatchCommand ["set".data, name] i =
        some { kind := .set, name := name, args := ["true".data], lineIndex := i } ∧
      dispatchCommand ["global".data, name] i =
        some { kind := .globalv, name := name, args := ["true".data], lineIndex := i }) := by
  refine ⟨fun line i => rfl, ?_, ?_⟩
  · intro cmd hcmd
    simp only [List.mem_cons, List.not_mem_nil, or_false] at hcmd
    rcases hcmd with h | h | h | h | h | h <;> subst h
    · exact ⟨fun i => rfl, fun name rest i hname => by
        simp [dispatchCommand, hname]⟩
    · exact ⟨fun i => rfl, fun name rest i hname => by
        simp [dispatchCommand, hname]⟩
    · exact ⟨fun i => rfl, fun name rest i hname => by
        simp [dispatchCommand, hname]⟩
    · exact ⟨fun i => rfl, fun name rest i hname => by
        simp [dispatchCommand, hname]⟩
    · exact ⟨fun i => rfl, fun name rest i hname => by
        simp [dispatchCommand, hname]⟩
    · exact ⟨fun i => rfl, fun name rest i hname => by
        simp [dispatchCommand, hname]⟩
  · intro name i hname
    constructor
    · simp [dispatchCommand, hname]
    · simp [dispatchCommand, hname]

/-- Witness for `c9_parser_totality`. -/
theorem c9_witness :
    dispatchCommand ["set".data] 0 = none ∧
    dispatchCommand ["set".data, "bad*name".data] 0 = none ∧
    dispatchCommand ["set".data, "x".data] 0 =
      some { kind := .set, name := "x".data, args := ["true".data], lineIndex := 0 } := by
  refine ⟨((c9_parser_totality.2.1 "set".data (by simp)).1 0), ?_, ?_⟩
  · exact (c9_parser_totality.2.1 "set".data (by simp)).2 "bad*name".data [] 0 (by decide)
  · exact ((c9_parser_totality.2.2 "x".data 0 (by decide)).1)

/-! ## C10 -/

theorem splitNl_no_newline {s : Str} (h : '\n' ∉ s) : splitNl s = [s] := by
  induction s with
  | nil => rfl
  | cons c cs ih =>
    have hc : ¬(c = '\n') := fun hc => h (by simp [hc])
    have hcs : '\n' ∉ cs := fun hm => h (by simp [hm])
    simp [splitNl, hc, ih hcs]

theorem splitNl_append_newline {x : Str} (t : Str) (h : '\n' ∉ x) :
    splitNl (x ++ '\n' :: t) = x :: splitNl t := by
  induction x with
  | nil => simp [splitNl]
  | cons c cs ih =>
    have hc : ¬(c = '\n') := fun hc => h (by simp [hc])
    have hcs : '\n' ∉ cs := fun hm => h (by simp [hm])
    have hstep := ih hcs
    simp only [List.cons_append, splitNl, hc, if_false]
    rw [show cs.append ('\n' :: t) = cs ++ '\n' :: t from rfl, hstep]

theorem splitNl_joinNl {pre : List Str} (hne : pre ≠ [])
    (h : ∀ l ∈ pre, '\n' ∉ l) : splitNl (joinNl pre) = pre := by
  induction pre with
  | nil => exact absurd rfl hne
  | cons x rest ih =>
    cases rest with
    | nil => exact splitNl_no_newline (h x (by simp))
    | cons y ys =>
      have hx : '\n' ∉ x := h x (by simp)
      have hrest : ∀ l ∈ y :: ys, '\n' ∉ l := fun l hl => h l (by simp [hl])
      calc splitNl (joinNl (x :: y :: ys))
          = splitNl (x ++ '\n' :: joinNl (y :: ys)) := rfl
        _ = x :: splitNl (joinNl (y :: ys)) := splitNl_append_newline _ hx
        _ = x :: y :: ys := by rw [ih (by simp) hrest]

theorem vget_vinsert (m : VarMap) (k v : Str) (k' : Str) :
    vget (vinsert m k v) k' = if k' = k then some v else vget m k' := by
  by_cases h : k' = k
  · simp [vget, vinsert, h, List.find?_cons]
  · simp only [vget, vinsert, List.find?_cons]
    have : (decide ((k, v).1 = k')) = false := by
      simp only [decide_eq_false_iff_not]
      exact fun hh => h hh.symm
    simp [this, h]

theorem yamlFold_mono (lines : List Str) (init : VarMap) (k : Str)
    (h : vget init k ≠ none) : vget (lines.foldl yamlStep init) k ≠ none := by
  induction lines generalizing init with
  | nil => exact h
  | cons l ls ih =>
    refine ih (yamlStep init l) ?_
    unfold yamlStep
    cases hp : yamlPairOf l with
    | none => exact h
    | some kv =>
      rcases kv with ⟨k', v'⟩
      rw [vget_vinsert]
      by_cases hk : k = k' <;> simp [hk, h]

theorem yamlFold_mem : ∀ (lines : List Str) (init : VarMap) (k v l : Str),
    l ∈ lines → yamlPairOf l = some (k, v) →
    vget (lines.foldl yamlStep init) k ≠ none := by
  intro lines
  induction lines with
  | nil => intro init k v l hl _; simp at hl
  | cons x xs ih =>
    intro init k v l hl hp
    rcases List.mem_cons.mp hl with rfl | hmem
    · refine yamlFold_mono xs (yamlStep init l) k ?_
      unfold yamlStep
      rw [hp, vget_vinsert]
      simp
    · exact ih (yamlStep init x) k v l hmem hp

theorem yamlFold_src : ∀ (lines : List Str) (init : VarMap) (k v' : Str),
    vget (lines.foldl yamlStep init) k = some v' →
    vget init k = some v' ∨ ∃ l ∈ lines, yamlPairOf l = some (k, v') := by
  intro lines
  induction lines with
  | nil => intro init k v' h; exact Or.inl h
  | cons x xs ih =>
    intro init k v' h
    rcases ih (yamlStep init x) k v' h with hbase | ⟨l, hl, hpair⟩
    · unfold yamlStep at hbase
      cases hp : yamlPairOf x with
      | none =>
        rw [hp] at hbase
        exact Or.inl hbase
      | some kv =>
        rcases kv with ⟨k', w⟩
        rw [hp, vget_vinsert] at hbase
        by_cases hk : k = k'
        · subst hk
          rw [if_pos rfl] at hbase
          obtain rfl : w = v' := by simpa using hbase
          exact Or.inr ⟨x, by simp, hp⟩
        · rw [if_neg hk] at hbase
          exact Or.inl hbase
    · exact Or.inr ⟨l, by simp [hl], hpair⟩

theorem findCloseIdx_notin {tail : List Str} (h : ∀ l ∈ tail, l ≠ "---".data) :
    ∀ i, findCloseIdx tail i = none := by
  induction tail with
  | nil => intro i; rfl
  | cons x xs ih =>
    intro i
    have hx : ¬(x = "---".data) := h x (by simp)
    simp only [findCloseIdx, hx, if_false]
    exact ih (fun l hl => h l (by simp [hl])) (i + 1)

theorem findCloseIdx_append {pre : List Str} (post : List Str)
    (h : "---".data ∉ pre) :
    ∀ i, findCloseIdx (pre ++ "---".data :: post) i = some (pre.length + i) := by
  induction pre with
  | nil => intro i; simp [findCloseIdx]
  | cons x xs ih =>
    intro i
    have hx : ¬(x = "---".data) := fun hx => h (by simp [hx])
    have hstep : findCloseIdx ((x :: xs) ++ "---".data :: post) i
        = findCloseIdx (xs ++ "---".data :: post) (i + 1) := by
      simp [findCloseIdx, hx]
    rw [hstep, ih (fun hm => h (by simp [hm])) (i + 1)]
    congr 1
    simp only [List.length_cons]
    omega

/-- C10: frontmatter parsing is atomic.  If the file starts with `---` but no
closing `---` follows, the content is returned unchanged (opening `---`
included) with empty metadata.  If a closing `---` exists, the returned
content is exactly the lines after it, the metadata is `parseSimpleYAML` of
the delimited block, and every `key: value` pair line between the delimiters
gets its key recorded in the metadata (with the value coming from a pair
line of the block). -/
theorem c10_frontmatter_atomic (lines pre post : List Str) :
    (lines.headD [] = "---".data → (∀ l ∈ lines.drop 1, l ≠ "---".data) →
      parseFrontmatter lines = (lines, [])) ∧
    ("---".data ∉ pre → (∀ l ∈ pre, '\n' ∉ l) →
      parseFrontmatter ("---".data :: pre ++ "---".data :: post) =
        (post, parseSimpleYAML (joinNl pre)) ∧
      (∀ l ∈ pre, ∀ k v, yamlPairOf l = some (k, v) →
        ∃ v', vget (parseSimpleYAML (joinNl pre)) k = some v' ∧
          ∃ l' ∈ pre, yamlPairOf l' = some (k, v'))) := by
  constructor
  · intro hhead hnoclose
    by_cases hnil : lines = []
    · subst hnil; rfl
    · unfold parseFrontmatter
      rw [if_neg hnil, if_neg (not_not_intro hhead),
        findCloseIdx_notin hnoclose 1]
  · intro hnotin hnonl
    have hfind : findCloseIdx (("---".data :: pre ++ "---".data :: post).drop 1) 1
        = some (pre.length + 1) := by
      simpa using findCloseIdx_append post hnotin 1
    have hyaml : (("---".data :: pre ++ "---".data :: post).drop 1).take
        ((pre.length + 1) - 1) = pre := by
      simp [List.take_left]
    have hcontent : ("---".data :: pre ++ "---".data :: post).drop
        ((pre.length + 1) + 1) = post := by
      simp only [List.cons_append, List.drop_succ_cons]
      rw [← List.drop_drop, List.drop_left]
      rfl
    constructor
    · unfold parseFrontmatter
      rw [if_neg (by simp), if_neg (by simp), hfind]
      simp only [hyaml, hcontent]
      by_cases hempty : joinNl pre = []
      · rw [hempty]
        simp only [ne_eq, not_true_eq_false, if_false]
        -- parseSimpleYAML [] = []
        rfl
      · simp [hempty]
    · intro l hl k v hpair
      have hprene : pre ≠ [] := by rintro rfl; simp at hl
      have hround : splitNl (joinNl pre) = pre := splitNl_joinNl hprene hnonl
      have hfold : parseSimpleYAML (joinNl pre) = pre.foldl yamlStep [] := by
        unfold parseSimpleYAML
        rw [hround]
      have hnn : vget (parseSimpleYAML (joinNl pre)) k ≠ none := by
        rw [hfold]
        exact yamlFold_mem pre [] k v l hl hpair
      rcases hv' : vget (parseSimpleYAML (joinNl pre)) k with _ | v'
      · exact absurd hv' hnn
      · refine ⟨v', rfl, ?_⟩
        have := yamlFold_src pre [] k v' (by rw [← hfold]; exact hv')
        rcases this with hbase | hsrc
        · simp [vget] at hbase
        · exact hsrc

/-! ## C6 -/

theorem gflt_asymm {a b : GoFloat} (h : gflt a b = true) : gflt b a = false := by
  cases a <;> cases b <;> simp_all [gflt]
  exact le_of_lt (by assumption)

theorem gflt_trans {a b c : GoFloat} (h1 : gflt a b = true) (h2 : gflt b c = true) :
    gflt a c = true := by
  cases a <;> cases b <;> cases c <;> simp_all [gflt]
  exact lt_trans (by assumption) (by assumption)

theorem ownInsert_perm (less : α → α → Bool) (x : α) (l : List α) :
    (ownInsert less x l).Perm (x :: l) := by
  induction l with
  | nil => exact List.Perm.refl _
  | cons y ys ih =>
    unfold ownInsert
    by_cases h : less x y = true
    · rw [if_pos h]
    · rw [if_neg h]
      exact (ih.cons y).trans (List.Perm.swap x y ys)

theorem ownSort_perm (less : α → α → Bool) (l : List α) :
    (ownSort less l).Perm l := by
  induction l with
  | nil => exact List.Perm.refl _
  | cons x xs ih =>
    exact (ownInsert_perm less x (ownSort less xs)).trans (ih.cons x)

theorem ownInsert_pairwise (less : α → α → Bool)
    (hasymm : ∀ a b, less a b = true → less b a = false)
    (htrans : ∀ a b c, less a b = true → less b c = true → less a c = true)
    (x : α) (l : List α) (hl : l.Pairwise (fun a b => less b a = false)) :
    (ownInsert less x l).Pairwise (fun a b => less b a = false) := by
  induction l with
  | nil => simp [ownInsert]
  | cons y ys ih =>
    rcases List.pairwise_cons.mp hl with ⟨hy, hys⟩
    unfold ownInsert
    by_cases h : less x y = true
    · rw [if_pos h]
      refine List.pairwise_cons.mpr ⟨?_, hl⟩
      intro z hz
      rcases List.mem_cons.mp hz with rfl | hz
      · exact hasymm _ _ h
      · cases hzx : less z x with
        | false => rfl
        | true =>
          exfalso
          have hzy := htrans _ _ _ hzx h
          rw [hy z hz] at hzy
          exact Bool.false_ne_true hzy
    · rw [if_neg h]
      refine List.pairwise_cons.mpr ⟨?_, ih hys⟩
      intro z hz
      have hmem : z = x ∨ z ∈ ys := by
        have := (ownInsert_perm less x ys).mem_iff.mp hz
        simpa using this
      rcases hmem with rfl | hz'
      · simpa using h
      · exact hy z hz'

theorem ownSort_pairwise (less : α → α → Bool)
    (hasymm : ∀ a b, less a b = true → less b a = false)
    (htrans : ∀ a b c, less a b = true → less b c = true → less a c = true)
    (l : List α) :
    (ownSort less l).Pairwise (fun a b => less b a = false) := by
  induction l with
  | nil => simp [ownSort]
  | cons x xs ih =>
    exact ownInsert_pairwise less hasymm htrans x (ownSort less xs) ih

theorem fdLess_asymm (f : Str) (a b : VarMap) (h : fdLess f a b = true) :
    fdLess f b a = false := by
  unfold fdLess at h ⊢
  by_cases hd : isDateField f = true
  · rw [if_pos hd] at h ⊢
    exact gflt_asymm h
  · rw [if_neg hd] at h ⊢
    exact gflt_asymm h

theorem fdLess_trans (f : Str) (a b c : VarMap)
    (h1 : fdLess f a b = true) (h2 : fdLess f b c = true) : fdLess f a c = true := by
  unfold fdLess at h1 h2 ⊢
  by_cases hd : isDateField f = true
  · rw [if_pos hd] at h1 h2 ⊢
    exact gflt_trans h2 h1
  · rw [if_neg hd] at h1 h2 ⊢
    exact gflt_trans h1 h2

/-- The rational key a date-like field sorts by: the parsed timestamp, or
epoch 0 for a missing field or unparseable value. -/
def dateKeyQ (f : Str) (m : VarMap) : ℚ :=
  match vget m f with
  | none => 0
  | some v => parseDateToTimestamp v

theorem getSortKey_date (m : VarMap) (f : Str) (hd : isDateField f = true) :
    getSortKey m f = .finite (dateKeyQ f m) := by
  unfold getSortKey dateKeyQ
  cases vget m f with
  | none => rfl
  | some v => simp [hd]

theorem gflt_finite_false {p q : ℚ} (h : gflt (.finite p) (.finite q) = false) :
    q ≤ p := by
  simp only [gflt, decide_eq_false_iff_not, not_lt] at h
  exact h

/-- C6 counterexample: with descending date order and unparseable values
keyed as epoch 0, an unparseable value does *not* come last when a parseable
date lies before the epoch: `junk` (key 0) sorts before `1969-12-31`
(key −86400). -/
theorem c6_counterexample_preepoch_date :
    sortFileData [[("date".data, "1969-12-31".data)], [("date".data, "junk".data)]]
        "date".data
      = [[("date".data, "junk".data)], [("date".data, "1969-12-31".data)]] ∧
    parseDateToTimestamp "junk".data = 0 ∧
    parseDateToTimestamp "1969-12-31".data = -86400 := by
  refine ⟨by decide, by decide, by decide⟩

/-- C6 (amended): `sortFileData` returns a permutation of its input.  For a
date-like field (`date`/`created`/`modified`/`published`, case-insensitive)
every entry's key is the parsed timestamp of its value (epoch 0 when missing
or unparseable) and the output is ordered by descending key — so unparseable
entries come last exactly when every parseable date is on or after the
epoch; a pre-1970 date sorts below an unparseable value.  For any other
field the output is ascending for the code's comparator, whose key is the
parsed number when the value parses as a float and otherwise the
content-derived hash. -/
theorem c6_amended_sort_order (fileData : List VarMap) (sortField : Str) :
    (sortFileData fileData sortField).Perm fileData ∧
    (isDateField sortField = true →
      (∀ m, getSortKey m sortField = .finite (dateKeyQ sortField m)) ∧
      (sortFileData fileData sortField).Pairwise
        (fun a b => dateKeyQ sortField b ≤ dateKeyQ sortField a)) ∧
    (isDateField sortField = false →
      (∀ m v, vget m sortField = some v → v ≠ [] →
        getSortKey m sortField =
          (match goParseFloat v with
           | some fl => fl
           | none => .finite (contentHash v))) ∧
      (sortFileData fileData sortField).Pairwise
        (fun a b => gflt (getSortKey b sortField) (getSortKey a sortField) = false)) := by
  have hpair := ownSort_pairwise (fdLess sortField)
    (fdLess_asymm sortField) (fdLess_trans sortField) fileData
  refine ⟨ownSort_perm _ _, ?_, ?_⟩
  · intro hd
    refine ⟨fun m => getSortKey_date m _ hd, ?_⟩
    refine hpair.imp ?_
    intro a b hab
    unfold fdLess at hab
    rw [if_pos hd, getSortKey_date a _ hd, getSortKey_date b _ hd] at hab
    exact gflt_finite_false hab
  · intro hd
    constructor
    · intro m v hv hvne
      unfold getSortKey
      rw [hv]
      simp only [hd, Bool.false_eq_true, if_false, hvne, ne_eq, not_false_eq_true,
        if_true]
    · refine hpair.imp ?_
      intro a b hab
      unfold fdLess at hab
      rw [if_neg (by simp [hd])] at hab
      exact hab

/-- Witness for `c6_amended_sort_order`, on the spec's own example
`["2024-01-01", "01/02/2024", "not-a-date"]`. -/
theorem c6_witness :
    (sortFileData [[("date".data, "2024-01-01".data)], [("date".data, "01/02/2024".data)],
        [("date".data, "not-a-date".data)]] "date".data).Perm
      [[("date".data, "2024-01-01".data)], [("date".data, "01/02/2024".data)],
        [("date".data, "not-a-date".data)]] ∧
    (sortFileData [[("date".data, "2024-01-01".data)], [("date".data, "01/02/2024".data)],
        [("date".data, "not-a-date".data)]] "date".data).Pairwise
      (fun a b => dateKeyQ "date".data b ≤ dateKeyQ "date".data a) :=
  ⟨(c6_amended_sort_order _ "date".data).1,
   ((c6_amended_sort_order [[("date".data, "2024-01-01".data)],
      [("date".data, "01/02/2024".data)], [("date".data, "not-a-date".data)]]
      "date".data).2.1 (by decide)).2⟩

/-! ## C2 -/

theorem takeWhile_ident_append {name : Str} (rest : Str)
    (h : ∀ c ∈ name, identChar c = true) :
    (name ++ '}' :: rest).takeWhile identChar = name := by
  induction name with
  | nil => simp [List.takeWhile_cons, (by decide : identChar '}' = false)]
  | cons c cs ih =>
    have hc : identChar c = true := h c (by simp)
    simp only [List.cons_append, List.takeWhile_cons, hc, if_true]
    rw [ih (fun c hc => h c (by simp [hc]))]

theorem vget_cons (p : Str × Str) (m : VarMap) (k : Str) :
    vget (p :: m) k = if p.1 = k then some p.2 else vget m k := by
  by_cases h : p.1 = k <;> simp [vget, List.find?_cons, h]

theorem vget_append_none {a b : VarMap} {k : Str}
    (ha : vget a k = none) (hb : vget b k = none) : vget (a ++ b) k = none := by
  induction a with
  | nil => simpa using hb
  | cons p ps ih =>
    rw [vget_cons] at ha
    rw [List.cons_append, vget_cons]
    by_cases h : p.1 = k
    · rw [if_pos h] at ha; simp at ha
    · rw [if_neg h] at ha ⊢
      exact ih ha

theorem replaceVarTokensF_nil (repl : Str → Option Str) :
    ∀ fuel, replaceVarTokensF repl fuel [] = [] := by
  intro fuel
  cases fuel <;> rfl

theorem replaceVarTokensF_token (repl : Str → Option Str) (name tail : Str)
    (hne : name ≠ []) (hall : ∀ c ∈ name, identChar c = true) (fuel : Nat)
    (hfuel : fuel ≠ 0) :
    replaceVarTokensF repl fuel ('{' :: '{' :: name ++ '}' :: '}' :: tail) =
      (match repl name with
       | some t => t
       | none => '{' :: '{' :: name ++ ['}', '}']) ++
        replaceVarTokensF repl (fuel - 1) tail := by
  cases fuel with
  | zero => exact absurd rfl hfuel
  | succ f =>
    have htake : (name ++ '}' :: '}' :: tail).takeWhile identChar = name :=
      takeWhile_ident_append _ hall
    have hdrop : (name ++ '}' :: '}' :: tail).drop name.length = '}' :: '}' :: tail :=
      List.drop_left _ _
    simp only [replaceVarTokensF, List.append_eq, htake, hdrop]
    have hcond : (decide (name ≠ []) && hasPrefix (('}' : Char) :: '}' :: tail) ['}', '}']) = true := by
      simp only [hasPrefix, Bool.and_eq_true, decide_eq_true_eq, ne_eq]
      refine ⟨by simpa using hne, ?_⟩
      exact List.cons_prefix_cons.mpr ⟨rfl,
        List.cons_prefix_cons.mpr ⟨rfl, List.nil_prefix⟩⟩
    rw [if_pos hcond]
    simp only [List.drop_succ_cons, List.drop_zero, Nat.add_sub_cancel]

theorem directiveContent_not_lt {c : Char} (s : Str) (hc : c ≠ '<') :
    directiveContent (c :: s) = none := by
  rcases s with _ | ⟨a, _ | ⟨b, _ | ⟨d, r⟩⟩⟩ <;> simp [directiveContent, hc]

theorem inlineIfAt_not_lt {c : Char} (s : Str) (hc : c ≠ '<') :
    inlineIfAt (c :: s) = none := by
  rcases s with _ | ⟨a, _ | ⟨b, _ | ⟨d, r⟩⟩⟩ <;> simp [inlineIfAt, hc]

theorem findInlineIf_no_lt {s : Str} (h : ∀ c ∈ s, c ≠ '<') :
    findInlineIf s = none := by
  induction s with
  | nil => rfl
  | cons c cs ih =>
    have hc : c ≠ '<' := h c (by simp)
    have hcs : ∀ c' ∈ cs, c' ≠ '<' := fun c' hc' => h c' (by simp [hc'])
    simp [findInlineIf, inlineIfAt_not_lt cs hc, ih hcs]

theorem processInlineConditionals_no_lt {s : Str} (loc meta : VarMap)
    (h : ∀ c ∈ s, c ≠ '<') : processInlineConditionals s loc meta = s := by
  unfold processInlineConditionals processInlineConditionalsFuel
  rw [findInlineIf_no_lt h]

/-- Characters of the undefined-variable token `{{name}}`. -/
theorem token_chars {name : Str} (hall : ∀ c ∈ name, identChar c = true) :
    ∀ c ∈ ('{' :: '{' :: name ++ '}' :: '}' :: ([] : Str)),
      c ≠ '<' ∧ c ≠ '\n' ∧ isUniSpace c = false := by
  intro c hc
  rcases List.mem_cons.mp hc with rfl | hc
  · exact ⟨by decide, by decide, by decide⟩
  rcases List.mem_cons.mp hc with rfl | hc
  · exact ⟨by decide, by decide, by decide⟩
  rcases List.mem_append.mp hc with hc | hc
  · have hi := hall c hc
    refine ⟨fun he => ?_, fun he => ?_, identChar_not_uniSpace hi⟩
    · subst he; exact absurd hi (by decide)
    · subst he; exact absurd hi (by decide)
  · rcases List.mem_cons.mp hc with rfl | hc
    · exact ⟨by decide, by decide, by decide⟩
    rcases List.mem_cons.mp hc with rfl | hc
    · exact ⟨by decide, by decide, by decide⟩
    · simp at hc

/-- C2 counterexample: in index-template rendering an unmatched
`{{identifier}}` token is *not* left unchanged — `processIndexTemplate`
(which ends in `ProcessContentWithDirectives` / `doReplacements`) removes
it. -/
theorem c2_counterexample_index_template_removes_token :
    processIndexTemplate ["{{missing}}".data] [] [] [] = [] ∧
    ([] : Str) ≠ "{{missing}}".data := by
  constructor
  · decide
  · decide

/-- C2 (amended): undefined `{{identifier}}` tokens are removed (replaced by
the empty string) both by the Variable Engine's token substitution
(`doReplacements`) and by index-template rendering
(`processIndexTemplate`); the behaviour of leaving unmatched tokens intact
belongs to `parser.ExpandVariables`, the per-line expansion used inside
`ProcessVariables`, not to index rendering. -/
theorem c2_amended_undefined_token_removal
    (name : Str) (loc meta vars : VarMap)
    (hv : validIdent name = true)
    (hl : vget loc name = none) (hm : vget meta name = none)
    (hvars : vget vars name = none) :
    doReplacements ('{' :: '{' :: name ++ ['}', '}']) loc meta = [] ∧
    expandVariables ('{' :: '{' :: name ++ ['}', '}']) vars =
      '{' :: '{' :: name ++ ['}', '}'] ∧
    processIndexTemplate ['{' :: '{' :: name ++ ['}', '}']] loc [] meta = [] := by
  have hall : ∀ c ∈ name, identChar c = true := by
    simp only [validIdent, Bool.and_eq_true, List.all_eq_true, decide_eq_true_eq] at hv
    exact fun c hc => hv.2 c hc
  have hne : name ≠ [] := by
    simp only [validIdent, Bool.and_eq_true] at hv
    simpa using hv.1
  have hchars := token_chars hall
  have hdoRep : doReplacements ('{' :: '{' :: name ++ ['}', '}']) loc meta = [] := by
    unfold doReplacements replaceVarTokens
    rw [replaceVarTokensF_token _ _ _ hne hall _ (by simp)]
    simp only [vmerge]
    rw [vget_append_none hl hm]
    simp [replaceVarTokensF_nil]
  refine ⟨hdoRep, ?_, ?_⟩
  · unfold expandVariables replaceVarTokens
    rw [replaceVarTokensF_token _ _ _ hne hall _ (by simp), hvars]
    simp [replaceVarTokensF_nil]
  · -- the token line is not a directive
    have htrim : trimSpace ('{' :: '{' :: name ++ ['}', '}']) =
        '{' :: '{' :: name ++ ['}', '}'] :=
      trimSpace_of_no_space (fun c hc => (hchars c hc).2.2)
    have hdc : directiveContent ('{' :: '{' :: name ++ ['}', '}']) = none :=
      directiveContent_not_lt _ (by decide)
    have hparse : parseLine ('{' :: '{' :: name ++ ['}', '}']) 0 = none := by
      unfold parseLine
      rw [htrim, hdc]
    have hnolt : ∀ c ∈ ('{' :: '{' :: name ++ '}' :: '}' :: ([] : Str)), c ≠ '<' :=
      fun c hc => (hchars c hc).1
    have hnonl : ('\n' : Char) ∉ ('{' :: '{' :: name ++ '}' :: '}' :: ([] : Str)) :=
      fun hmem => (hchars '\n' hmem).2.1 rfl
    unfold processIndexTemplate
    simp only [List.flatMap_cons, List.flatMap_nil, hparse, List.append_nil]
    have hjoin : joinNl ['{' :: '{' :: name ++ ['}', '}']] =
        '{' :: '{' :: name ++ ['}', '}'] := rfl
    rw [hjoin]
    unfold processContentWithDirectives
    rw [processInlineConditionals_no_lt loc meta hnolt,
      splitNl_no_newline hnonl]
    simp only [blockSweep, hparse, if_pos rfl]
    rw [if_pos trivial, hjoin]
    exact hdoRep

/-- Witness for `c2_amended_undefined_token_removal`. -/
theorem c2_witness :
    doReplacements ('{' :: '{' :: "missing".data ++ ['}', '}']) [] [] = [] ∧
    expandVariables ('{' :: '{' :: "missing".data ++ ['}', '}']) [] =
      '{' :: '{' :: "missing".data ++ ['}', '}'] ∧
    processIndexTemplate ['{' :: '{' :: "missing".data ++ ['}', '}']] [] [] [] = [] :=
  c2_amended_undefined_token_removal "missing".data [] [] []
    (by decide) rfl rfl rfl

/-- Witness for `c10_frontmatter_atomic`. -/
theorem c10_witness :
    parseFrontmatter ["---".data, "title: Hi".data, "no close".data] =
      (["---".data, "title: Hi".data, "no close".data], []) ∧
    parseFrontmatter ["---".data, "title: Hi".data, "---".data, "body".data] =
      (["body".data], parseSimpleYAML (joinNl ["title: Hi".data])) ∧
    vget (parseSimpleYAML (joinNl ["title: Hi".data])) "title".data = some "Hi".data := by
  refine ⟨(c10_frontmatter_atomic ["---".data, "title: Hi".data, "no close".data]
      [] []).1 rfl (by decide), ?_, ?_⟩
  · exact ((c10_frontmatter_atomic ["---".data, "title: Hi".data, "---".data, "body".data]
      ["title: Hi".data] ["body".data]).2 (by decide) (by decide)).1
  · decide

end Sniplicity
